import Mathlib

/-!
Formal model of `Replicator/Checkpoint.cc` from couchbase-lite-core.

A `Checkpoint` tracks replication progress: a sparse set of confirmed-complete
sequence numbers (`completed`), a high-water mark of sequences at least
attempted (`lastChecked`), and the peer's progress marker (`remote`).  The
methods of `Checkpoint.cc` (`resetLocal`, `toJSON`, `readJSON`/`readDict`,
`validateWith`, `localMinSequence`, `addPendingSequence`,
`pendingSequenceCount`, `setRemoteMinSequence`) are translated as pure
functions on an explicit state record.  The helper classes `SequenceSet` and
`RemoteSequence`, and the Fleece JSON layer, are declared outside this
fragment; they are modelled from the specification's description (§4.1, §4.2,
§6 of the design document).  Sequence numbers are modelled as `Nat`; all
realistic values are far below `2^64`, and the one place where unsigned
wrap-around of `end - 1` is observable in the C++ (`pendingSequenceCount` on
an empty range list) is modelled explicitly by a positivity guard.
-/

namespace LiteCore

namespace SequenceSet

/-- Modelled from the spec: membership in a `SequenceSet` (§4.1) — a sequence
number `x` is present iff some stored half-open range `[first, last)`
contains it. -/
def mem (x : Nat) (s : List (Nat × Nat)) : Bool :=
  s.any fun r => decide (r.1 ≤ x) && decide (x < r.2)

/-- Modelled from the spec: the canonical-form invariant of a `SequenceSet`
(§3) — every range is non-empty (`first < last`), ranges are sorted
ascending, and no two ranges touch or overlap (each range's `last` is
strictly below the next range's `first`). -/
def canonB : List (Nat × Nat) → Bool
  | [] => true
  | [(f, l)] => decide (f < l)
  | (f, l) :: (f2, l2) :: rest =>
    decide (f < l) && decide (l < f2) && canonB ((f2, l2) :: rest)

/-- Modelled from the spec: the recursive worker for `add` — inserts `[f, l)`
into a range list, coalescing with any ranges it overlaps or touches. -/
def addRange (f l : Nat) : List (Nat × Nat) → List (Nat × Nat)
  | [] => [(f, l)]
  | (a, b) :: rest =>
    if l < a then (f, l) :: (a, b) :: rest
    else if b < f then (a, b) :: addRange f l rest
    else addRange (min f a) (max l b) rest

/-- Modelled from the spec: `SequenceSet::add(first, last)` (§4.1) — inserts
the half-open interval, merging with existing ranges it overlaps or touches,
producing the canonical minimal form; an empty interval (`first ≥ last`) is a
no-op. -/
def add (f l : Nat) (s : List (Nat × Nat)) : List (Nat × Nat) :=
  if f < l then addRange f l s else s

/-- Modelled from the spec: `SequenceSet::remove(seq)` (§4.1) — removes
exactly one sequence number, splitting a containing range if `seq` is
strictly interior, shrinking it if `seq` is an endpoint, deleting a
one-element range; a no-op if `seq` is not present. -/
def remove (x : Nat) : List (Nat × Nat) → List (Nat × Nat)
  | [] => []
  | (a, b) :: rest =>
    if x < a then (a, b) :: rest
    else if b ≤ x then (a, b) :: remove x rest
    else
      (if a < x then [(a, x)] else []) ++ (if x + 1 < b then [(x + 1, b)] else []) ++ rest

/-- Modelled from the spec: `SequenceSet::rangesCount()` (§4.1). -/
def rangesCount (s : List (Nat × Nat)) : Nat := s.length

/-- Modelled from the spec: the sequence numbers common to the single range
`a` and every range of the second set, in ascending order. -/
def interOne (a : Nat × Nat) : List (Nat × Nat) → List (Nat × Nat)
  | [] => []
  | b :: t =>
    (if max a.1 b.1 < min a.2 b.2 then [(max a.1 b.1, min a.2 b.2)] else []) ++ interOne a t

/-- Modelled from the spec: `SequenceSet::intersection(A, B)` (§4.1) — a new
set containing only the sequence numbers present in both inputs' ranges. -/
def intersection : List (Nat × Nat) → List (Nat × Nat) → List (Nat × Nat)
  | [], _ => []
  | a :: t, B => interOne a B ++ intersection t B

end SequenceSet

/-- Modelled from the spec: `RemoteSequence` (§4.2, §9) — the peer's opaque
progress marker: empty, a non-negative integer, or an opaque token; equality
is representation equality. -/
inductive RemoteSequence : Type where
  | empty : RemoteSequence
  | int (n : Nat) : RemoteSequence
  | token (s : String) : RemoteSequence
deriving DecidableEq, Repr

/-- Modelled from the spec: `RemoteSequence::isInt()` — true exactly on
numeric markers. -/
def RemoteSequence.isInt : RemoteSequence → Bool
  | .int _ => true
  | _ => false

/-- Modelled from the spec: `RemoteSequence::intValue()` — the numeric value;
only meaningful when `isInt` holds (callers check `isInt` first). -/
def RemoteSequence.intValue : RemoteSequence → Nat
  | .int n => n
  | _ => 0

/-- The `Checkpoint` state (`Checkpoint.hh`/`Checkpoint.cc`): the confirmed
set `_completed`, the high-water mark `_lastChecked`, and the peer marker
`_remote`. -/
@[ext]
structure Checkpoint : Type where
  completed : List (Nat × Nat)
  lastChecked : Nat
  remote : RemoteSequence
deriving DecidableEq, Repr

/-- `Checkpoint::resetLocal()` (Checkpoint.cc:30-34): clear `_completed`,
re-add the sentinel range `[0,1)`, set `_lastChecked` to 0; `_remote` is not
touched. -/
def resetLocal (c : Checkpoint) : Checkpoint :=
  { c with completed := SequenceSet.add 0 1 [], lastChecked := 0 }

/-- A brand-new checkpoint: `resetLocal` state with an empty remote marker
(the constructor performs `resetLocal`; spec §4.3). -/
def freshCheckpoint : Checkpoint :=
  { completed := SequenceSet.add 0 1 [], lastChecked := 0, remote := RemoteSequence.empty }

/-- `Checkpoint::localMinSequence()` (Checkpoint.cc:147-150): asserts
`_completed` non-empty, then returns `begin()->second - 1`.  The empty case
is the assertion failure, modelled as 0; the sentinel invariant is meant to
make it unreachable. -/
def localMinSequence (c : Checkpoint) : Nat :=
  match c.completed with
  | [] => 0
  | r :: _ => r.2 - 1

/-- `Checkpoint::addPendingSequence(s)` (Checkpoint.cc:152-155):
`_lastChecked = max(_lastChecked, s)` then `_completed.remove(s)`. -/
def addPendingSequence (s : Nat) (c : Checkpoint) : Checkpoint :=
  { c with
    lastChecked := max c.lastChecked s,
    completed := SequenceSet.remove s c.completed }

/-- The loop of `Checkpoint::pendingSequenceCount()` (Checkpoint.cc:159-164):
returns the accumulated gap count and the final value of `end`. -/
def pendingLoop : List (Nat × Nat) → Nat → Nat × Nat
  | [], e => (0, e)
  | (f, l) :: t, e =>
    let r := pendingLoop t l
    (f - e + r.1, r.2)

/-- `Checkpoint::pendingSequenceCount()` (Checkpoint.cc:157-167): sum of
`range.first - end` over the ranges, plus `_lastChecked - (end - 1)` when
`_lastChecked > end - 1`.  In the C++ `end` is a `uint64_t`; when the range
list is empty, `end - 1` wraps to `2^64 - 1` and the comparison is always
false, modelled here by the `0 < e` guard. -/
def pendingSequenceCount (c : Checkpoint) : Nat :=
  let r := pendingLoop c.completed 0
  if 0 < r.2 ∧ r.2 - 1 < c.lastChecked then r.1 + (c.lastChecked - (r.2 - 1)) else r.1

/-- `Checkpoint::setRemoteMinSequence(s)` (Checkpoint.cc:169-173): no-op
returning false when `s == _remote`, else replace `_remote` and return
true. -/
def setRemoteMinSequence (s : RemoteSequence) (c : Checkpoint) : Checkpoint × Bool :=
  if s = c.remote then (c, false) else ({ c with remote := s }, true)

/-- The remote-marker clause of `Checkpoint::validateWith`
(Checkpoint.cc:123-142), applied to the state `c1` and flag `m1` left by the
completed-set clause: only when `_remote` is non-empty and differs from the
peer's; if both are numeric, roll back to the peer's (older) value when ours
is strictly greater, otherwise keep ours without touching `match`; if either
is non-numeric, reset `_remote` to empty. -/
def remoteStep (c1 peer : Checkpoint) (m1 : Bool) : Checkpoint × Bool :=
  if c1.remote ≠ RemoteSequence.empty ∧ c1.remote ≠ peer.remote then
    if c1.remote.isInt && peer.remote.isInt then
      if peer.remote.intValue < c1.remote.intValue then
        ({ c1 with remote := peer.remote }, false)
      else (c1, m1)
    else ({ c1 with remote := RemoteSequence.empty }, false)
  else (c1, m1)

/-- `Checkpoint::validateWith(remoteSequences)` (Checkpoint.cc:107-145).
Clause 1 (Checkpoint.cc:116-122): if the completed sets differ, `_completed`
becomes the intersection and `match` becomes false.  Then clause 2, the
remote-marker clause (`remoteStep`).  Returns the final `match`. -/
def validateWith (c peer : Checkpoint) : Checkpoint × Bool :=
  if c.completed = peer.completed then
    remoteStep c peer true
  else
    remoteStep { c with completed := SequenceSet.intersection c.completed peer.completed }
      peer false

/-- The no-mutation condition of `validateWith`'s remote clause: the clause
is skipped (`_remote` empty or equal to the peer's) or takes the
keep-the-local-value branch (both numeric, local ≤ peer). -/
def remoteClauseOk (c peer : Checkpoint) : Bool :=
  decide (c.remote = RemoteSequence.empty) || decide (c.remote = peer.remote) ||
    (c.remote.isInt && peer.remote.isInt && decide (c.remote.intValue ≤ peer.remote.intValue))

/-- Modelled from the spec: the structured checkpoint document (§6) produced
by `Checkpoint::toJSON` and consumed by `Checkpoint::readDict`.  The Fleece
encoding/parsing layer is outside this fragment; a document is modelled as
the record of its four optional fields (`localSeq` models the `local`
field; an absent integer field reads as 0, and an absent `remote` reads as
the empty marker). -/
structure CkptDoc : Type where
  time : Option Nat
  localSeq : Option Nat
  localCompleted : Option (List Nat)
  remote : RemoteSequence
deriving DecidableEq, Repr

/-- The flat `(first, length)` pair array written for `localCompleted`
(Checkpoint.cc:55-60): for each range, its `first` then `second - first`. -/
def flattenPairs : List (Nat × Nat) → List Nat
  | [] => []
  | (f, l) :: t => f :: (l - f) :: flattenPairs t

/-- The pairing step of the `localCompleted` read loop
(Checkpoint.cc:94-98): values are taken two at a time as
`(first, length)`; a trailing odd value pairs with 0 (an out-of-range
Fleece iterator dereference yields a null value, whose `asUnsigned` is 0). -/
def toPairs : List Nat → List (Nat × Nat)
  | [] => []
  | [f] => [(f, 0)]
  | f :: len :: rest => (f, len) :: toPairs rest

/-- The `localCompleted` read loop (Checkpoint.cc:94-98): for each
`(first, length)` pair, `_completed.add(first, first + length)`. -/
def addPairs (arr : List Nat) (s : List (Nat × Nat)) : List (Nat × Nat) :=
  (toPairs arr).foldl (fun acc p => SequenceSet.add p.1 (p.1 + p.2) acc) s

/-- `Checkpoint::toJSON()` (Checkpoint.cc:36-71): optional timestamp; `local`
= `localMinSequence()` when positive; `localCompleted` = the flat pair array
when more than one range; `remote` written as-is when non-empty (an empty
marker is modelled by the `RemoteSequence.empty` value). -/
def toJSON (gWriteTimestamps : Bool) (now : Nat) (c : Checkpoint) : CkptDoc :=
  { time := if gWriteTimestamps then some now else none,
    localSeq := if 0 < localMinSequence c then some (localMinSequence c) else none,
    localCompleted :=
      if 1 < SequenceSet.rangesCount c.completed then some (flattenPairs c.completed) else none,
    remote := c.remote }

/-- `Checkpoint::readDict(root)` (Checkpoint.cc:82-105): `resetLocal()`,
clear `_remote`, and stop if the root is null; otherwise read `remote`, then
either replay the `localCompleted` pairs or, in the legacy form, read `local`
as an integer `n` and `add(0, n + 1)`.  The result does not depend on the
prior state, so the model returns the new state directly. -/
def readDict (root : Option CkptDoc) : Checkpoint :=
  match root with
  | none => freshCheckpoint
  | some d =>
    match d.localCompleted with
    | some pending =>
      { freshCheckpoint with
        remote := d.remote,
        completed := addPairs pending freshCheckpoint.completed }
    | none =>
      { freshCheckpoint with
        remote := d.remote,
        completed := SequenceSet.add 0 (d.localSeq.getD 0 + 1) freshCheckpoint.completed }

/-- `Checkpoint::readJSON(json)` (Checkpoint.cc:73-80): parse the bytes with
the Fleece JSON parser — a failure is logged and leaves a null root — then
`readDict(root)`.  The parser itself is outside this fragment; its outcome is
modelled by the `Option CkptDoc` argument (`none` = empty slice or
unparseable bytes). -/
def readJSON (parsed : Option CkptDoc) : Checkpoint :=
  readDict parsed

/-- The spec's formula (§3): "sum of gap sizes between consecutive confirmed
ranges" — the gap between each adjacent pair of ranges. -/
def gapsBetween : List (Nat × Nat) → Nat
  | [] => 0
  | [_] => 0
  | (_, l1) :: (f2, l2) :: t => (f2 - l1) + gapsBetween ((f2, l2) :: t)

/-- The end (exclusive) of the last range of a range list; 0 when empty. -/
def lastEnd : List (Nat × Nat) → Nat
  | [] => 0
  | [(_, l)] => l
  | _ :: r :: t => lastEnd (r :: t)

/-- The spec's formula (§3): "the tail from the end of the last confirmed
range up to `lastChecked` (if `lastChecked` extends beyond it)": the last
confirmed sequence is `lastEnd - 1`, and the tail is counted when
`lastChecked` reaches past it. -/
def tailCount : List (Nat × Nat) → Nat → Nat
  | [], _ => 0
  | r :: t, lastChecked =>
    if lastEnd (r :: t) ≤ lastChecked then lastChecked - (lastEnd (r :: t) - 1) else 0

/-- The sentinel invariant (spec §3): `completed` is a canonical range set
still containing the sentinel sequence 0 — in particular it is non-empty. -/
def sentinelInv (c : Checkpoint) : Bool :=
  SequenceSet.canonB c.completed && SequenceSet.mem 0 c.completed

/-- The mutating operations generating the reachable checkpoint states of the
round-trip property (spec §8): `add`/`remove` on the completed set and
`addPendingSequence`. -/
inductive CkptOp : Type where
  | addR (f l : Nat) : CkptOp
  | removeS (s : Nat) : CkptOp
  | addPending (s : Nat) : CkptOp
deriving DecidableEq, Repr

/-- Apply one `CkptOp` to a checkpoint. -/
def applyOp (c : Checkpoint) : CkptOp → Checkpoint
  | .addR f l => { c with completed := SequenceSet.add f l c.completed }
  | .removeS s => { c with completed := SequenceSet.remove s c.completed }
  | .addPending s => addPendingSequence s c

/-- The checkpoint reached from a freshly reset checkpoint by a sequence of
`CkptOp`s. -/
def reach (ops : List CkptOp) : Checkpoint :=
  ops.foldl applyOp freshCheckpoint

end LiteCore

namespace LiteCore

namespace SequenceSet

theorem canon_head_lt {f l : Nat} {s : List (Nat × Nat)}
    (h : canonB ((f, l) :: s) = true) : f < l := by
  match s with
  | [] => simpa [canonB] using h
  | (f2, l2) :: t =>
    simp only [canonB, Bool.and_eq_true, decide_eq_true_eq] at h
    exact h.1.1

theorem canon_link {f l f2 l2 : Nat} {t : List (Nat × Nat)}
    (h : canonB ((f, l) :: (f2, l2) :: t) = true) : l < f2 := by
  simp only [canonB, Bool.and_eq_true, decide_eq_true_eq] at h
  exact h.1.2

theorem canon_tail {x : Nat × Nat} {s : List (Nat × Nat)}
    (h : canonB (x :: s) = true) : canonB s = true := by
  match x, s with
  | (f, l), [] => rfl
  | (f, l), (f2, l2) :: t =>
    simp only [canonB, Bool.and_eq_true, decide_eq_true_eq] at h
    exact h.2

theorem canon_bound {x : Nat × Nat} {s : List (Nat × Nat)}
    (h : canonB (x :: s) = true) : ∀ q ∈ s, x.2 < q.1 := by
  induction s generalizing x with
  | nil => intro q hq; cases hq
  | cons y t ih =>
    intro q hq
    have hxy : x.2 < y.1 := by
      obtain ⟨f, l⟩ := x; obtain ⟨f2, l2⟩ := y; exact canon_link h
    rcases List.mem_cons.mp hq with rfl | hq'
    · exact hxy
    · have hy : y.1 < y.2 := by
        obtain ⟨f2, l2⟩ := y; exact canon_head_lt (canon_tail h)
      have := ih (canon_tail h) q hq'
      omega

theorem canon_cons {x : Nat × Nat} {s : List (Nat × Nat)} (hx : x.1 < x.2)
    (hs : canonB s = true) (hb : ∀ q ∈ s, x.2 < q.1) : canonB (x :: s) = true := by
  match x, s with
  | (f, l), [] => simpa [canonB] using hx
  | (f, l), (f2, l2) :: t =>
    simp only [canonB, Bool.and_eq_true, decide_eq_true_eq]
    exact ⟨⟨hx, hb (f2, l2) (List.mem_cons_self _ _)⟩, hs⟩

theorem canon_mem_lt {s : List (Nat × Nat)} (h : canonB s = true) :
    ∀ p ∈ s, p.1 < p.2 := by
  induction s with
  | nil => intro p hp; cases hp
  | cons x t ih =>
    intro p hp
    rcases List.mem_cons.mp hp with rfl | hp'
    · obtain ⟨f, l⟩ := p; exact canon_head_lt h
    · exact ih (canon_tail h) p hp'

theorem mem_cons {x : Nat} {r : Nat × Nat} {s : List (Nat × Nat)} :
    mem x (r :: s) = ((decide (r.1 ≤ x) && decide (x < r.2)) || mem x s) := rfl

theorem mem_append {x : Nat} {s t : List (Nat × Nat)} :
    mem x (s ++ t) = (mem x s || mem x t) := by
  simp [mem, List.any_append]

theorem mem_exists {x : Nat} {s : List (Nat × Nat)} (h : mem x s = true) :
    ∃ p ∈ s, p.1 ≤ x ∧ x < p.2 := by
  simpa [mem, List.any_eq_true] using h

theorem mem_of {x : Nat} {p : Nat × Nat} {s : List (Nat × Nat)}
    (hp : p ∈ s) (h1 : p.1 ≤ x) (h2 : x < p.2) : mem x s = true := by
  simp only [mem, List.any_eq_true]
  exact ⟨p, hp, by simpa using ⟨h1, h2⟩⟩

theorem mem0_head {f l : Nat} {t : List (Nat × Nat)}
    (hc : canonB ((f, l) :: t) = true) (hm : mem 0 ((f, l) :: t) = true) :
    f = 0 ∧ 0 < l := by
  obtain ⟨p, hp, hp1, hp2⟩ := mem_exists hm
  rcases List.mem_cons.mp hp with rfl | hp'
  · simp only at hp1 hp2
    omega
  · have h1 := canon_bound hc p hp'
    have h2 := canon_head_lt hc
    omega

end SequenceSet

end LiteCore

namespace LiteCore

namespace SequenceSet

theorem addRange_lb {cLow f l : Nat} {s : List (Nat × Nat)}
    (hs : ∀ p ∈ s, cLow < p.1) (hf : cLow < f) :
    ∀ p ∈ addRange f l s, cLow < p.1 := by
  induction s generalizing f l with
  | nil =>
    intro p hp
    simp only [addRange, List.mem_singleton] at hp
    subst hp; exact hf
  | cons r rest ih =>
    obtain ⟨a, b⟩ := r
    intro p hp
    have ha : cLow < a := hs (a, b) (List.mem_cons_self _ _)
    have hrest : ∀ q ∈ rest, cLow < q.1 := fun q hq => hs q (List.mem_cons_of_mem _ hq)
    simp only [addRange] at hp
    split_ifs at hp with h1 h2
    · rcases List.mem_cons.mp hp with rfl | hp'
      · exact hf
      · exact hs p hp'
    · rcases List.mem_cons.mp hp with rfl | hp'
      · exact ha
      · exact ih hrest hf p hp'
    · exact ih hrest (by omega : cLow < min f a) p hp

theorem addRange_canon {f l : Nat} {s : List (Nat × Nat)}
    (hs : canonB s = true) (hfl : f < l) : canonB (addRange f l s) = true := by
  induction s generalizing f l with
  | nil => simpa [addRange, canonB] using hfl
  | cons r rest ih =>
    obtain ⟨a, b⟩ := r
    have hab : a < b := canon_head_lt hs
    have ht : canonB rest = true := canon_tail hs
    have hbd : ∀ q ∈ rest, b < q.1 := canon_bound hs
    simp only [addRange]
    split_ifs with h1 h2
    · refine canon_cons hfl hs ?_
      intro q hq
      rcases List.mem_cons.mp hq with rfl | hq'
      · exact h1
      · have := hbd q hq'; omega
    · refine canon_cons hab (ih ht hfl) ?_
      intro q hq
      exact addRange_lb hbd h2 q hq
    · exact ih ht (by omega : min f a < max l b)

theorem add_canon {f l : Nat} {s : List (Nat × Nat)}
    (hs : canonB s = true) : canonB (add f l s) = true := by
  unfold add
  split_ifs with h
  · exact addRange_canon hs h
  · exact hs

theorem addRange_mem_of {x f l : Nat} {s : List (Nat × Nat)}
    (h1 : f ≤ x) (h2 : x < l) : mem x (addRange f l s) = true := by
  induction s generalizing f l with
  | nil => simp [addRange, mem]; omega
  | cons r rest ih =>
    obtain ⟨a, b⟩ := r
    simp only [addRange]
    split_ifs with ha hb
    · exact mem_of (List.mem_cons_self _ _) h1 h2
    · rw [mem_cons, ih h1 h2, Bool.or_true]
    · exact ih (by omega : min f a ≤ x) (by omega : x < max l b)

theorem addRange_mem_mono {x f l : Nat} {s : List (Nat × Nat)}
    (h : mem x s = true) : mem x (addRange f l s) = true := by
  induction s generalizing f l with
  | nil => simp [mem] at h
  | cons r rest ih =>
    obtain ⟨a, b⟩ := r
    have h' : (a ≤ x ∧ x < b) ∨ mem x rest = true := by
      rw [mem_cons] at h
      rcases Bool.or_eq_true_iff.mp h with h0 | h0
      · left; simpa using h0
      · right; exact h0
    simp only [addRange]
    split_ifs with ha hb
    · rcases h' with ⟨hx1, hx2⟩ | hrest
      · exact mem_of (List.mem_cons_of_mem _ (List.mem_cons_self _ _)) hx1 hx2
      · rw [mem_cons, mem_cons, hrest]; simp
    · rcases h' with ⟨hx1, hx2⟩ | hrest
      · exact mem_of (List.mem_cons_self _ _) hx1 hx2
      · rw [mem_cons, ih hrest]; simp
    · rcases h' with ⟨hx1, hx2⟩ | hrest
      · exact addRange_mem_of (by omega : min f a ≤ x) (by omega : x < max l b)
      · exact ih hrest

theorem add_mem_mono {x f l : Nat} {s : List (Nat × Nat)}
    (h : mem x s = true) : mem x (add f l s) = true := by
  unfold add
  split_ifs with hfl
  · exact addRange_mem_mono h
  · exact h

theorem remove_lb {cLow x : Nat} {s : List (Nat × Nat)}
    (hs : ∀ p ∈ s, cLow < p.1) : ∀ p ∈ remove x s, cLow < p.1 := by
  induction s with
  | nil => intro p hp; simp [remove] at hp
  | cons r rest ih =>
    obtain ⟨a, b⟩ := r
    have ha : cLow < a := hs (a, b) (List.mem_cons_self _ _)
    have hrest : ∀ q ∈ rest, cLow < q.1 := fun q hq => hs q (List.mem_cons_of_mem _ hq)
    intro p hp
    simp only [remove] at hp
    split_ifs at hp with h1 h2 h3 h4
    all_goals
      simp only [List.mem_append, List.mem_singleton, List.mem_cons,
        List.not_mem_nil, or_false, false_or] at hp
    · rcases hp with rfl | hp'
      · exact ha
      · exact hrest p hp'
    · rcases hp with rfl | hp'
      · exact ha
      · exact ih hrest p hp'
    · rcases hp with (rfl | rfl) | hp'
      · exact ha
      · simp only; omega
      · exact hrest p hp'
    · rcases hp with rfl | hp'
      · exact ha
      · exact hrest p hp'
    · rcases hp with rfl | hp'
      · simp only; omega
      · exact hrest p hp'
    · exact hrest p hp

theorem remove_canon {x : Nat} {s : List (Nat × Nat)}
    (hs : canonB s = true) : canonB (remove x s) = true := by
  induction s with
  | nil => rfl
  | cons r rest ih =>
    obtain ⟨a, b⟩ := r
    have hab : a < b := canon_head_lt hs
    have ht : canonB rest = true := canon_tail hs
    have hbd : ∀ q ∈ rest, b < q.1 := canon_bound hs
    simp only [remove]
    split_ifs with h1 h2 h3 h4
    · exact hs
    · exact canon_cons hab (ih ht) (remove_lb hbd)
    · simp only [List.singleton_append, List.cons_append]
      refine canon_cons (by simp only; omega) ?_ ?_
      · refine canon_cons (by simp only; omega) ht ?_
        intro q hq; exact hbd q hq
      · intro q hq
        rcases List.mem_cons.mp hq with rfl | hq'
        · simp only; omega
        · have := hbd q hq'; simp only; omega
    · simp only [List.singleton_append, List.nil_append]
      refine canon_cons (by simp only; omega) ht ?_
      intro q hq
      have := hbd q hq; simp only; omega
    · simp only [List.nil_append, List.singleton_append]
      refine canon_cons (by simp only; omega) ht ?_
      intro q hq
      exact hbd q hq
    · simpa using ht

theorem remove_mem0 {x : Nat} {s : List (Nat × Nat)}
    (hx : x ≠ 0) (h : mem 0 s = true) : mem 0 (remove x s) = true := by
  induction s with
  | nil => simp [mem] at h
  | cons r rest ih =>
    obtain ⟨a, b⟩ := r
    have h' : (a = 0 ∧ 0 < b) ∨ mem 0 rest = true := by
      rw [mem_cons] at h
      rcases Bool.or_eq_true_iff.mp h with h0 | h0
      · left
        simp only [Bool.and_eq_true, decide_eq_true_eq] at h0
        omega
      · right; exact h0
    simp only [remove]
    split_ifs with h1 h2 h3 h4
    · exact h
    · rcases h' with ⟨ha0, hb0⟩ | hrest
      · exact mem_of (List.mem_cons_self _ _) (by omega) (by simp only; omega)
      · rw [mem_cons, ih hrest]; simp
    · rcases h' with ⟨ha0, hb0⟩ | hrest
      · exact mem_of (p := (a, x)) (by simp) (by simp only; omega) (by simp only; omega)
      · simp [mem_cons, mem_append, hrest]
    · rcases h' with ⟨ha0, hb0⟩ | hrest
      · exact mem_of (p := (a, x)) (by simp) (by simp only; omega) (by simp only; omega)
      · simp [mem_cons, mem_append, hrest]
    · rcases h' with ⟨ha0, hb0⟩ | hrest
      · omega
      · simp [mem_cons, mem_append, hrest]
    · rcases h' with ⟨ha0, hb0⟩ | hrest
      · omega
      · simp [mem_cons, mem_append, hrest]

end SequenceSet

end LiteCore

namespace LiteCore

namespace SequenceSet

theorem interOne_shape {a p : Nat × Nat} {B : List (Nat × Nat)}
    (hp : p ∈ interOne a B) :
    ∃ b ∈ B, p = (max a.1 b.1, min a.2 b.2) ∧ max a.1 b.1 < min a.2 b.2 := by
  induction B with
  | nil => simp [interOne] at hp
  | cons b t ih =>
    simp only [interOne, List.mem_append] at hp
    rcases hp with hp | hp
    · split_ifs at hp with hemit
      · simp only [List.mem_singleton] at hp
        exact ⟨b, List.mem_cons_self _ _, hp, hemit⟩
      · simp at hp
    · obtain ⟨b', hb', hpe, hlt⟩ := ih hp
      exact ⟨b', List.mem_cons_of_mem _ hb', hpe, hlt⟩

theorem interOne_sound {y : Nat} {a : Nat × Nat} {B : List (Nat × Nat)}
    (h : mem y (interOne a B) = true) :
    (a.1 ≤ y ∧ y < a.2) ∧ mem y B = true := by
  obtain ⟨p, hp, hp1, hp2⟩ := mem_exists h
  obtain ⟨b, hb, rfl, hlt⟩ := interOne_shape hp
  simp only at hp1 hp2
  refine ⟨⟨by omega, by omega⟩, mem_of hb (by omega) (by omega)⟩

theorem inter_sound {y : Nat} {A B : List (Nat × Nat)}
    (h : mem y (intersection A B) = true) :
    mem y A = true ∧ mem y B = true := by
  induction A with
  | nil => simp [intersection, mem] at h
  | cons a t ih =>
    rw [intersection, mem_append] at h
    rcases Bool.or_eq_true_iff.mp h with h0 | h0
    · obtain ⟨⟨h1, h2⟩, hB⟩ := interOne_sound h0
      exact ⟨mem_of (List.mem_cons_self _ _) h1 h2, hB⟩
    · obtain ⟨hA, hB⟩ := ih h0
      refine ⟨?_, hB⟩
      rw [mem_cons, hA]
      simp

theorem interOne_ub {a p : Nat × Nat} {B : List (Nat × Nat)}
    (hp : p ∈ interOne a B) : p.2 ≤ a.2 := by
  obtain ⟨b, _, rfl, _⟩ := interOne_shape hp
  simp only
  omega

theorem inter_lb_left {cLow : Nat} {A B : List (Nat × Nat)}
    (hA : ∀ q ∈ A, cLow < q.1) : ∀ p ∈ intersection A B, cLow < p.1 := by
  induction A with
  | nil => intro p hp; simp [intersection] at hp
  | cons a t ih =>
    intro p hp
    rw [intersection, List.mem_append] at hp
    rcases hp with hp | hp
    · obtain ⟨b, _, rfl, _⟩ := interOne_shape hp
      have := hA a (List.mem_cons_self _ _)
      simp only
      omega
    · exact ih (fun q hq => hA q (List.mem_cons_of_mem _ hq)) p hp

theorem canonB_append {xs ys : List (Nat × Nat)}
    (hx : canonB xs = true) (hy : canonB ys = true)
    (hglue : ∀ p ∈ xs, ∀ q ∈ ys, p.2 < q.1) : canonB (xs ++ ys) = true := by
  induction xs with
  | nil => simpa using hy
  | cons x t ih =>
    rw [List.cons_append]
    refine canon_cons (canon_head_lt (f := x.1) (l := x.2) (by simpa using hx)) ?_ ?_
    · exact ih (canon_tail hx) (fun p hp q hq => hglue p (List.mem_cons_of_mem _ hp) q hq)
    · intro q hq
      rcases List.mem_append.mp hq with hq' | hq'
      · exact canon_bound hx q hq'
      · exact hglue x (List.mem_cons_self _ _) q hq'

theorem interOne_canon {a : Nat × Nat} {B : List (Nat × Nat)}
    (hB : canonB B = true) : canonB (interOne a B) = true := by
  induction B with
  | nil => rfl
  | cons b t ih =>
    have hbt : canonB t = true := canon_tail hB
    have hbd : ∀ q ∈ t, b.2 < q.1 := canon_bound hB
    rw [interOne]
    split_ifs with hemit
    · rw [List.singleton_append]
      refine canon_cons (by simpa using hemit) (ih hbt) ?_
      intro q hq
      obtain ⟨b', hb', rfl, _⟩ := interOne_shape hq
      have := hbd b' hb'
      simp only
      omega
    · rw [List.nil_append]
      exact ih hbt

theorem inter_canon {A B : List (Nat × Nat)}
    (hA : canonB A = true) (hB : canonB B = true) :
    canonB (intersection A B) = true := by
  induction A with
  | nil => rfl
  | cons a t ih =>
    rw [intersection]
    refine canonB_append (interOne_canon hB) (ih (canon_tail hA)) ?_
    intro p hp q hq
    have h1 : p.2 ≤ a.2 := interOne_ub hp
    have h2 : a.2 < q.1 := inter_lb_left (canon_bound hA) q hq
    omega

theorem inter_mem0 {A B : List (Nat × Nat)}
    (hA : canonB A = true) (hB : canonB B = true)
    (h0A : mem 0 A = true) (h0B : mem 0 B = true) :
    mem 0 (intersection A B) = true := by
  match A, B with
  | [], _ => simp [mem] at h0A
  | _ :: _, [] => simp [mem] at h0B
  | (fa, la) :: tA, (fb, lb) :: tB =>
    obtain ⟨hfa, hla⟩ := mem0_head hA h0A
    obtain ⟨hfb, hlb⟩ := mem0_head hB h0B
    subst hfa; subst hfb
    refine mem_of (p := (max 0 0, min la lb)) ?_ (by simp) (by simp only; omega)
    rw [intersection, interOne]
    have : max (0:Nat) 0 < min la lb := by simp only [Nat.max_self]; omega
    rw [if_pos this]
    simp

end SequenceSet

end LiteCore

namespace LiteCore

namespace SequenceSet

theorem canon_append_head {acc ys : List (Nat × Nat)} {q : Nat × Nat}
    (h : canonB (acc ++ q :: ys) = true) : ∀ p ∈ acc, p.2 < q.1 := by
  induction acc with
  | nil => intro p hp; cases hp
  | cons x t ih =>
    intro p hp
    rcases List.mem_cons.mp hp with rfl | hp'
    · refine canon_bound (by simpa using h) q ?_
      simp
    · exact ih (canon_tail (by simpa using h)) p hp'

theorem addRange_append {f l : Nat} {s : List (Nat × Nat)}
    (hlt : ∀ p ∈ s, p.1 < p.2) (hub : ∀ p ∈ s, p.2 < f) (hfl : f < l) :
    addRange f l s = s ++ [(f, l)] := by
  induction s with
  | nil => rfl
  | cons r rest ih =>
    obtain ⟨a, b⟩ := r
    have hab : a < b := hlt (a, b) (List.mem_cons_self _ _)
    have hbf : b < f := hub (a, b) (List.mem_cons_self _ _)
    rw [addRange, if_neg (by omega), if_pos hbf]
    rw [ih (fun p hp => hlt p (List.mem_cons_of_mem _ hp))
        (fun p hp => hub p (List.mem_cons_of_mem _ hp))]
    rfl

theorem fold_add_append {acc t : List (Nat × Nat)}
    (h : canonB (acc ++ t) = true) :
    List.foldl (fun s r => add r.1 r.2 s) acc t = acc ++ t := by
  induction t generalizing acc with
  | nil => simp
  | cons r t2 ih =>
    obtain ⟨f, l⟩ := r
    have hfl : f < l :=
      canon_mem_lt h (f, l) (by simp)
    have hub : ∀ p ∈ acc, p.2 < f := canon_append_head h
    have hlt : ∀ p ∈ acc, p.1 < p.2 := fun p hp =>
      canon_mem_lt h p (List.mem_append_left _ hp)
    have hadd : add f l acc = acc ++ [(f, l)] := by
      rw [add, if_pos hfl]
      exact addRange_append hlt hub hfl
    rw [List.foldl_cons]
    simp only at hadd
    rw [hadd]
    have h2 : canonB ((acc ++ [(f, l)]) ++ t2) = true := by
      simpa [List.append_assoc] using h
    rw [ih h2]
    simp

theorem add_sentinel {l : Nat} (hl : 0 < l) : add 0 l [(0, 1)] = [(0, l)] := by
  rw [add, if_pos hl, addRange, if_neg (by omega), if_neg (by omega), addRange]
  have h1 : min 0 0 = 0 := by omega
  have h2 : max l 1 = l := by omega
  rw [h1, h2]

end SequenceSet

theorem canon_lastEnd_pos {s : List (Nat × Nat)}
    (hc : SequenceSet.canonB s = true) (hne : s ≠ []) : 0 < lastEnd s := by
  induction s with
  | nil => exact absurd rfl hne
  | cons r t ih =>
    obtain ⟨f, l⟩ := r
    cases t with
    | nil =>
      have := SequenceSet.canon_head_lt hc
      rw [lastEnd]
      omega
    | cons r2 t2 =>
      rw [lastEnd]
      exact ih (SequenceSet.canon_tail hc) (by simp)

theorem toPairs_flatten (rs : List (Nat × Nat)) :
    toPairs (flattenPairs rs) = rs.map (fun r => (r.1, r.2 - r.1)) := by
  induction rs with
  | nil => rfl
  | cons r t ih =>
    obtain ⟨f, l⟩ := r
    rw [flattenPairs, toPairs, ih]
    rfl

theorem fold_add_congr {rs : List (Nat × Nat)} {s : List (Nat × Nat)}
    (h : ∀ p ∈ rs, p.1 ≤ p.2) :
    List.foldl (fun acc r => SequenceSet.add r.1 (r.1 + (r.2 - r.1)) acc) s rs =
      List.foldl (fun acc r => SequenceSet.add r.1 r.2 acc) s rs := by
  induction rs generalizing s with
  | nil => rfl
  | cons r t ih =>
    have hr : r.1 + (r.2 - r.1) = r.2 := by
      have := h r (List.mem_cons_self _ _)
      omega
    rw [List.foldl_cons, List.foldl_cons, hr]
    exact ih (fun p hp => h p (List.mem_cons_of_mem _ hp))

theorem addPairs_flatten {rs : List (Nat × Nat)} {s : List (Nat × Nat)}
    (h : ∀ p ∈ rs, p.1 ≤ p.2) :
    addPairs (flattenPairs rs) s = List.foldl (fun acc r => SequenceSet.add r.1 r.2 acc) s rs := by
  rw [addPairs, toPairs_flatten, List.foldl_map]
  exact fold_add_congr h

theorem pendingLoop_fst (t : List (Nat × Nat)) (f l e : Nat) :
    (pendingLoop ((f, l) :: t) e).1 = (f - e) + gapsBetween ((f, l) :: t) := by
  induction t generalizing f l e with
  | nil => simp [pendingLoop, gapsBetween]
  | cons r t2 ih =>
    obtain ⟨f2, l2⟩ := r
    rw [gapsBetween]
    show f - e + (pendingLoop ((f2, l2) :: t2) l).1 = f - e + (f2 - l + gapsBetween ((f2, l2) :: t2))
    rw [ih]

theorem pendingLoop_snd (t : List (Nat × Nat)) (f l e : Nat) :
    (pendingLoop ((f, l) :: t) e).2 = lastEnd ((f, l) :: t) := by
  induction t generalizing f l e with
  | nil => rfl
  | cons r t2 ih =>
    obtain ⟨f2, l2⟩ := r
    show (pendingLoop ((f2, l2) :: t2) l).2 = _
    rw [ih]
    rfl

end LiteCore

namespace LiteCore

open SequenceSet

theorem remoteStep_completed (c1 p : Checkpoint) (m : Bool) :
    (remoteStep c1 p m).1.completed = c1.completed := by
  rw [remoteStep]
  split_ifs <;> rfl

theorem remoteStep_lastChecked (c1 p : Checkpoint) (m : Bool) :
    (remoteStep c1 p m).1.lastChecked = c1.lastChecked := by
  rw [remoteStep]
  split_ifs <;> rfl

theorem remoteStep_remote (c1 p : Checkpoint) (m : Bool) :
    (remoteStep c1 p m).1.remote =
      if c1.remote ≠ RemoteSequence.empty ∧ c1.remote ≠ p.remote then
        if c1.remote.isInt && p.remote.isInt then
          if p.remote.intValue < c1.remote.intValue then p.remote else c1.remote
        else RemoteSequence.empty
      else c1.remote := by
  rw [remoteStep]
  split_ifs <;> rfl

theorem remoteStep_snd (c1 p : Checkpoint) (m : Bool) :
    (remoteStep c1 p m).2 = (m && remoteClauseOk c1 p) := by
  rw [remoteStep, remoteClauseOk]
  by_cases h1 : c1.remote = RemoteSequence.empty
  · rw [if_neg (by simp [h1])]
    simp [h1]
  · by_cases h2 : c1.remote = p.remote
    · rw [if_neg (by simp [h2])]
      simp [h2]
    · rw [if_pos ⟨h1, h2⟩]
      by_cases h3 : (c1.remote.isInt && p.remote.isInt) = true
      · rw [if_pos h3]
        by_cases h4 : p.remote.intValue < c1.remote.intValue
        · rw [if_pos h4]
          have hd : decide (c1.remote.intValue ≤ p.remote.intValue) = false := by
            simp only [decide_eq_false_iff_not]
            omega
          simp [h1, h2, h3, hd]
        · rw [if_neg h4]
          have hd : decide (c1.remote.intValue ≤ p.remote.intValue) = true := by
            simp only [decide_eq_true_eq]
            omega
          simp [h1, h2, h3, hd]
      · rw [if_neg h3]
        have h3f : (c1.remote.isInt && p.remote.isInt) = false := by
          cases hb : (c1.remote.isInt && p.remote.isInt) with
          | false => rfl
          | true => exact absurd hb h3
        simp [h1, h2, h3f]

theorem validateWith_completed (c p : Checkpoint) :
    (validateWith c p).1.completed =
      if c.completed = p.completed then c.completed
      else SequenceSet.intersection c.completed p.completed := by
  rw [validateWith]
  split_ifs with h <;> rw [remoteStep_completed]

theorem validateWith_lastChecked (c p : Checkpoint) :
    (validateWith c p).1.lastChecked = c.lastChecked := by
  rw [validateWith]
  split_ifs with h <;> rw [remoteStep_lastChecked]

theorem validateWith_remote (c p : Checkpoint) :
    (validateWith c p).1.remote =
      if c.remote ≠ RemoteSequence.empty ∧ c.remote ≠ p.remote then
        if c.remote.isInt && p.remote.isInt then
          if p.remote.intValue < c.remote.intValue then p.remote else c.remote
        else RemoteSequence.empty
      else c.remote := by
  rw [validateWith]
  by_cases h : c.completed = p.completed
  · rw [if_pos h, remoteStep_remote]
  · rw [if_neg h, remoteStep_remote]

theorem validateWith_snd (c p : Checkpoint) :
    (validateWith c p).2 = (decide (c.completed = p.completed) && remoteClauseOk c p) := by
  rw [validateWith]
  split_ifs with h
  · rw [remoteStep_snd]
    simp [h]
  · rw [remoteStep_snd]
    simp [h]

theorem remoteClauseOk_iff {c p : Checkpoint} :
    remoteClauseOk c p = true ↔
      (c.remote = RemoteSequence.empty ∨ c.remote = p.remote ∨
        (c.remote.isInt = true ∧ p.remote.isInt = true ∧
          c.remote.intValue ≤ p.remote.intValue)) := by
  rw [remoteClauseOk]
  simp only [Bool.or_eq_true, Bool.and_eq_true, decide_eq_true_eq, and_assoc, or_assoc]

theorem validateWith_remote_ok (c p : Checkpoint) :
    remoteClauseOk (validateWith c p).1 p = true := by
  have h := validateWith_remote c p
  rw [remoteClauseOk, h]
  split_ifs with h1 h2 h3
  · simp
  · have hd : decide (c.remote.intValue ≤ p.remote.intValue) = true := by
      simp only [decide_eq_true_eq]
      omega
    simp [h2, hd]
  · simp
  · rcases not_and_or.mp h1 with h | h
    · simp [not_not.mp h]
    · simp [not_not.mp h]

theorem validateWith_true_fix {c p : Checkpoint}
    (h : (validateWith c p).2 = true) : (validateWith c p).1 = c := by
  rw [validateWith_snd, Bool.and_eq_true, decide_eq_true_eq] at h
  obtain ⟨hcomp, hok⟩ := h
  have h1 := validateWith_completed c p
  rw [if_pos hcomp] at h1
  have h2 := validateWith_lastChecked c p
  have h4 : (validateWith c p).1.remote = c.remote := by
    rw [validateWith_remote]
    split_ifs with ha hb hc3
    · exfalso
      rcases remoteClauseOk_iff.mp hok with he | he | ⟨hi1, hi2, hle⟩
      · exact ha.1 he
      · exact ha.2 he
      · omega
    · rfl
    · exfalso
      rcases remoteClauseOk_iff.mp hok with he | he | ⟨hi1, hi2, hle⟩
      · exact ha.1 he
      · exact ha.2 he
      · rw [hi1, hi2] at hb
        simp at hb
    · rfl
  ext
  · rw [h1]
  · rw [h2]
  · rw [h4]

end LiteCore

namespace LiteCore

open SequenceSet

theorem fresh_completed : freshCheckpoint.completed = [(0, 1)] := by decide

theorem readDict_remote (d : CkptDoc) : (readDict (some d)).remote = d.remote := by
  cases hd : d.localCompleted <;> simp [readDict, hd]

theorem toJSON_remote (wt : Bool) (now : Nat) (c : Checkpoint) :
    (toJSON wt now c).remote = c.remote := rfl

theorem toJSON_localCompleted (wt : Bool) (now : Nat) (c : Checkpoint) :
    (toJSON wt now c).localCompleted =
      if 1 < SequenceSet.rangesCount c.completed then some (flattenPairs c.completed)
      else none := rfl

theorem toJSON_localSeq (wt : Bool) (now : Nat) (c : Checkpoint) :
    (toJSON wt now c).localSeq =
      if 0 < localMinSequence c then some (localMinSequence c) else none := rfl

theorem readDict_localCompleted_none (d : CkptDoc) (hd : d.localCompleted = none) :
    (readDict (some d)).completed =
      SequenceSet.add 0 (d.localSeq.getD 0 + 1) [(0, 1)] := by
  simp [readDict, hd, fresh_completed]

theorem readDict_localCompleted_some (d : CkptDoc) (arr : List Nat)
    (hd : d.localCompleted = some arr) :
    (readDict (some d)).completed = addPairs arr [(0, 1)] := by
  simp [readDict, hd, fresh_completed]

theorem localMinSequence_congr {a b : Checkpoint} (h : a.completed = b.completed) :
    localMinSequence a = localMinSequence b := by
  rw [localMinSequence, localMinSequence, h]

theorem applyOp_canon {c : Checkpoint} (h : canonB c.completed = true) (op : CkptOp) :
    canonB (applyOp c op).completed = true := by
  cases op with
  | addR f l => exact add_canon h
  | removeS s => exact remove_canon h
  | addPending s => exact remove_canon h

theorem reach_canon (ops : List CkptOp) : canonB (reach ops).completed = true := by
  rw [reach]
  have hfold : ∀ (l : List CkptOp) (c : Checkpoint), canonB c.completed = true →
      canonB (List.foldl applyOp c l).completed = true := by
    intro l
    induction l with
    | nil => intro c hc; exact hc
    | cons op t ih =>
      intro c hc
      exact ih _ (applyOp_canon hc op)
  exact hfold ops freshCheckpoint (by decide)

theorem readDict_toJSON_list (wt : Bool) (now lc : Nat) (rem : RemoteSequence)
    (rs : List (Nat × Nat)) (hc : canonB rs = true) (h0 : mem 0 rs = true) :
    (readDict (some (toJSON wt now ⟨rs, lc, rem⟩))).completed = rs := by
  match rs, hc, h0 with
  | [], _, h0 => simp [mem] at h0
  | (f, l) :: t, hc, h0 =>
    obtain ⟨hf0, hl⟩ := mem0_head hc h0
    subst hf0
    cases t with
    | nil =>
      have hd : (toJSON wt now ⟨[(0, l)], lc, rem⟩).localCompleted = none := by
        rw [toJSON_localCompleted]
        simp [SequenceSet.rangesCount]
      rw [readDict_localCompleted_none _ hd, toJSON_localSeq]
      have hmin : localMinSequence ⟨[(0, l)], lc, rem⟩ = l - 1 := rfl
      rw [hmin]
      by_cases hl1 : l = 1
      · subst hl1
        decide
      · have h2 : 0 < l - 1 := by omega
        rw [if_pos h2]
        simp only [Option.getD_some]
        have h3 : l - 1 + 1 = l := by omega
        rw [h3]
        exact add_sentinel hl
    | cons r2 t2 =>
      have hd : (toJSON wt now ⟨(0, l) :: r2 :: t2, lc, rem⟩).localCompleted =
          some (flattenPairs ((0, l) :: r2 :: t2)) := by
        rw [toJSON_localCompleted]
        have hcount : 1 < SequenceSet.rangesCount ((0, l) :: r2 :: t2) := by
          rw [SequenceSet.rangesCount]
          simp
        rw [if_pos hcount]
      rw [readDict_localCompleted_some _ _ hd]
      rw [addPairs_flatten (fun p hp => Nat.le_of_lt (canon_mem_lt hc p hp))]
      rw [List.foldl_cons]
      have hadd : SequenceSet.add (0, l).1 (0, l).2 [(0, 1)] = [(0, l)] := add_sentinel hl
      rw [hadd]
      exact fold_add_append hc

end LiteCore

namespace LiteCore

open SequenceSet

theorem foldl_add_canon (ps : List (Nat × Nat)) (s : List (Nat × Nat))
    (hs : canonB s = true) :
    canonB (List.foldl (fun acc p => add p.1 (p.1 + p.2) acc) s ps) = true := by
  induction ps generalizing s with
  | nil => exact hs
  | cons p t ih => exact ih _ (add_canon hs)

theorem foldl_add_mem0 (ps : List (Nat × Nat)) (s : List (Nat × Nat))
    (hs : mem 0 s = true) :
    mem 0 (List.foldl (fun acc p => add p.1 (p.1 + p.2) acc) s ps) = true := by
  induction ps generalizing s with
  | nil => exact hs
  | cons p t ih => exact ih _ (add_mem_mono hs)

theorem sentinelInv_eq (c : Checkpoint) :
    sentinelInv c = (canonB c.completed && mem 0 c.completed) := rfl

theorem sentinelInv_intro {c : Checkpoint} (h1 : canonB c.completed = true)
    (h2 : mem 0 c.completed = true) : sentinelInv c = true := by
  rw [sentinelInv_eq, h1, h2]
  rfl

theorem sentinelInv_canon {c : Checkpoint} (h : sentinelInv c = true) :
    canonB c.completed = true := by
  rw [sentinelInv_eq, Bool.and_eq_true] at h
  exact h.1

theorem sentinelInv_mem0 {c : Checkpoint} (h : sentinelInv c = true) :
    mem 0 c.completed = true := by
  rw [sentinelInv_eq, Bool.and_eq_true] at h
  exact h.2

theorem sentinelInv_ne_nil {c : Checkpoint} (h : sentinelInv c = true) :
    c.completed ≠ [] := by
  intro he
  have := sentinelInv_mem0 h
  rw [he] at this
  simp [mem] at this

theorem resetLocal_inv (c : Checkpoint) : sentinelInv (resetLocal c) = true := by
  show (canonB (SequenceSet.add 0 1 []) && mem 0 (SequenceSet.add 0 1 [])) = true
  decide

theorem readDict_inv (d : Option CkptDoc) : sentinelInv (readDict d) = true := by
  cases d with
  | none => decide
  | some d =>
    cases hd : d.localCompleted with
    | none =>
      refine sentinelInv_intro ?_ ?_ <;> rw [readDict_localCompleted_none _ hd]
      · exact add_canon (by decide)
      · exact add_mem_mono (by decide)
    | some arr =>
      refine sentinelInv_intro ?_ ?_ <;> rw [readDict_localCompleted_some _ _ hd]
      · exact foldl_add_canon _ _ (by decide)
      · exact foldl_add_mem0 _ _ (by decide)

theorem addPendingSequence_inv {c : Checkpoint} {s : Nat}
    (h : sentinelInv c = true) (hs : 1 ≤ s) :
    sentinelInv (addPendingSequence s c) = true := by
  refine sentinelInv_intro ?_ ?_
  · exact remove_canon (sentinelInv_canon h)
  · exact remove_mem0 (by omega) (sentinelInv_mem0 h)

theorem validateWith_inv {c p : Checkpoint}
    (hc : sentinelInv c = true) (hp : sentinelInv p = true) :
    sentinelInv (validateWith c p).1 = true := by
  have hcomp := validateWith_completed c p
  by_cases h : c.completed = p.completed
  · rw [if_pos h] at hcomp
    exact sentinelInv_intro (hcomp ▸ sentinelInv_canon hc) (hcomp ▸ sentinelInv_mem0 hc)
  · rw [if_neg h] at hcomp
    refine sentinelInv_intro ?_ ?_ <;> rw [hcomp]
    · exact inter_canon (sentinelInv_canon hc) (sentinelInv_canon hp)
    · exact inter_mem0 (sentinelInv_canon hc) (sentinelInv_canon hp)
        (sentinelInv_mem0 hc) (sentinelInv_mem0 hp)

theorem setRemoteMinSequence_completed (r : RemoteSequence) (c : Checkpoint) :
    (setRemoteMinSequence r c).1.completed = c.completed := by
  rw [setRemoteMinSequence]
  split_ifs <;> rfl

theorem setRemoteMinSequence_inv {c : Checkpoint} (r : RemoteSequence)
    (h : sentinelInv c = true) : sentinelInv (setRemoteMinSequence r c).1 = true := by
  refine sentinelInv_intro ?_ ?_ <;> rw [setRemoteMinSequence_completed]
  · exact sentinelInv_canon h
  · exact sentinelInv_mem0 h

theorem pendingSequenceCount_spec (lc : Nat) (rem : RemoteSequence)
    (l : Nat) (t : List (Nat × Nat)) (hc : canonB ((0, l) :: t) = true) :
    pendingSequenceCount ⟨(0, l) :: t, lc, rem⟩ =
      gapsBetween ((0, l) :: t) + tailCount ((0, l) :: t) lc := by
  have h1 := pendingLoop_fst t 0 l 0
  have h2 := pendingLoop_snd t 0 l 0
  have hL : 0 < lastEnd ((0, l) :: t) := canon_lastEnd_pos hc (by simp)
  simp only [pendingSequenceCount]
  rw [h1, h2, tailCount]
  split_ifs <;> omega

end LiteCore

namespace LiteCore

open SequenceSet

/-- C1: if the two completed sets differ, `validateWith` replaces the local
completed set by the intersection of the two — a set never wider than either
input, witnessed by membership soundness — and the call returns false. -/
theorem claim_C1 (L P : Checkpoint) (h : L.completed ≠ P.completed) :
    (validateWith L P).1.completed = SequenceSet.intersection L.completed P.completed ∧
    (validateWith L P).2 = false ∧
    (∀ x, SequenceSet.mem x (SequenceSet.intersection L.completed P.completed) = true →
      SequenceSet.mem x L.completed = true ∧ SequenceSet.mem x P.completed = true) := by
  refine ⟨?_, ?_, ?_⟩
  · rw [validateWith_completed, if_neg h]
  · rw [validateWith_snd]
    simp [h]
  · intro x hx
    exact inter_sound hx

/-- C1 witness: the spec's concrete instance — completed sets
`{[0,1),[5,10)}` vs `{[0,1),[5,8)}` yield `{[0,1),[5,8)}` and false. -/
theorem claim_C1_witness :
    (validateWith ⟨[(0, 1), (5, 10)], 10, RemoteSequence.empty⟩
        ⟨[(0, 1), (5, 8)], 8, RemoteSequence.empty⟩).1.completed = [(0, 1), (5, 8)] ∧
    (validateWith ⟨[(0, 1), (5, 10)], 10, RemoteSequence.empty⟩
        ⟨[(0, 1), (5, 8)], 8, RemoteSequence.empty⟩).2 = false := by
  have h := claim_C1 ⟨[(0, 1), (5, 10)], 10, RemoteSequence.empty⟩
    ⟨[(0, 1), (5, 8)], 8, RemoteSequence.empty⟩ (by decide)
  exact ⟨h.1.trans (by decide), h.2.1⟩

/-- C2 counterexample: with local completed `{[0,1)}` and peer completed
`{[0,1),[5,8)}` (both remotes empty), `validateWith` mutates nothing — the
intersection equals the local set, and the returned state equals the input —
yet it returns false; so "returns true iff it mutated neither field" fails in
the right-to-left direction. -/
theorem claim_C2_counterexample :
    (validateWith ⟨[(0, 1)], 0, RemoteSequence.empty⟩
        ⟨[(0, 1), (5, 8)], 0, RemoteSequence.empty⟩).1 =
      ⟨[(0, 1)], 0, RemoteSequence.empty⟩ ∧
    (validateWith ⟨[(0, 1)], 0, RemoteSequence.empty⟩
        ⟨[(0, 1), (5, 8)], 0, RemoteSequence.empty⟩).2 = false := by
  decide

/-- C2 amended: a true return guarantees no mutation, and the return value is
true exactly when the completed sets are equal and the remote clause takes no
mutating branch; a false return may nevertheless leave the state unchanged
(when the intersection coincides with the local completed set). -/
theorem claim_C2 (L P : Checkpoint) :
    ((validateWith L P).2 = true → (validateWith L P).1 = L) ∧
    ((validateWith L P).2 = true ↔
      (L.completed = P.completed ∧ remoteClauseOk L P = true)) := by
  refine ⟨validateWith_true_fix, ?_⟩
  rw [validateWith_snd, Bool.and_eq_true, decide_eq_true_eq]

/-- C2 witness: on two equal fresh checkpoints the call returns true and the
state is unchanged. -/
theorem claim_C2_witness :
    (validateWith freshCheckpoint freshCheckpoint).1 = freshCheckpoint :=
  (claim_C2 freshCheckpoint freshCheckpoint).1 (by decide)

/-- C3 counterexample: `addPendingSequence(0)` on a freshly reset checkpoint
removes the sentinel sequence 0 from `{[0,1)}`, leaving `completed` empty —
so "every operation, for any seq, preserves non-emptiness" is false as
stated. -/
theorem claim_C3_counterexample :
    (addPendingSequence 0 freshCheckpoint).completed = [] := by
  decide

/-- C3 amended: the operations preserve the sentinel invariant (canonical
completed set still containing sequence 0, hence non-empty) provided
`addPendingSequence` is only applied to real sequences (`1 ≤ s`, sequence 0
being the reserved sentinel) and `validateWith` peers themselves satisfy the
invariant; the invariant implies `completed ≠ []`, the precondition of
`localMinSequence`. -/
theorem claim_C3 :
    (∀ c : Checkpoint, sentinelInv (resetLocal c) = true) ∧
    (∀ d : Option CkptDoc, sentinelInv (readDict d) = true) ∧
    (∀ (c : Checkpoint) (s : Nat), sentinelInv c = true → 1 ≤ s →
      sentinelInv (addPendingSequence s c) = true) ∧
    (∀ c p : Checkpoint, sentinelInv c = true → sentinelInv p = true →
      sentinelInv (validateWith c p).1 = true) ∧
    (∀ (c : Checkpoint) (r : RemoteSequence), sentinelInv c = true →
      sentinelInv (setRemoteMinSequence r c).1 = true) ∧
    (∀ c : Checkpoint, sentinelInv c = true → c.completed ≠ []) :=
  ⟨resetLocal_inv, readDict_inv, fun _ _ h hs => addPendingSequence_inv h hs,
    fun _ _ hc hp => validateWith_inv hc hp, fun _ r h => setRemoteMinSequence_inv r h,
    fun _ h => sentinelInv_ne_nil h⟩

/-- C3 witness: concrete instances of the preserved invariant. -/
theorem claim_C3_witness :
    sentinelInv (addPendingSequence 1 freshCheckpoint) = true ∧
    (addPendingSequence 1 freshCheckpoint).completed ≠ [] ∧
    sentinelInv (validateWith freshCheckpoint freshCheckpoint).1 = true := by
  have h := claim_C3
  have h1 := h.2.2.1 freshCheckpoint 1 (by decide) (by omega)
  exact ⟨h1, h.2.2.2.2.2 _ h1,
    h.2.2.2.1 freshCheckpoint freshCheckpoint (by decide) (by decide)⟩

/-- C4 counterexample: the state reached by `add(5,8)` then `remove(0)` has
completed `{[5,8)}`; it serializes to the legacy single-range form
(`local = 7`, no `localCompleted` since there is one range), which
deserializes to `{[0,8)}` — the round trip does not preserve `completed`. -/
theorem claim_C4_counterexample :
    (reach [CkptOp.addR 5 8, CkptOp.removeS 0]).completed = [(5, 8)] ∧
    (readDict (some (toJSON true 0 (reach [CkptOp.addR 5 8, CkptOp.removeS 0])))).completed
      = [(0, 8)] ∧
    (readDict (some (toJSON true 0 (reach [CkptOp.addR 5 8, CkptOp.removeS 0])))).completed
      ≠ (reach [CkptOp.addR 5 8, CkptOp.removeS 0]).completed := by
  decide

/-- C4 amended: for every state reachable by `add`/`remove`/
`addPendingSequence` from a freshly reset checkpoint in which the sentinel
sequence 0 is still in `completed`, deserializing the serialized form
restores `completed`, `remote`, and `localMinSequence()` exactly (for any
timestamp setting). -/
theorem claim_C4 (ops : List CkptOp) (wt : Bool) (now : Nat)
    (h0 : SequenceSet.mem 0 (reach ops).completed = true) :
    (readDict (some (toJSON wt now (reach ops)))).completed = (reach ops).completed ∧
    (readDict (some (toJSON wt now (reach ops)))).remote = (reach ops).remote ∧
    localMinSequence (readDict (some (toJSON wt now (reach ops)))) =
      localMinSequence (reach ops) := by
  have hc := reach_canon ops
  have hcomp := readDict_toJSON_list wt now (reach ops).lastChecked (reach ops).remote
    (reach ops).completed hc h0
  refine ⟨hcomp, ?_, localMinSequence_congr hcomp⟩
  rw [readDict_remote, toJSON_remote]

/-- C4 witness: the sparse state `{[0,1),[5,8)}` round-trips exactly. -/
theorem claim_C4_witness :
    (readDict (some (toJSON true 0 (reach [CkptOp.addR 5 8])))).completed =
      (reach [CkptOp.addR 5 8]).completed ∧
    (readDict (some (toJSON true 0 (reach [CkptOp.addR 5 8])))).remote =
      (reach [CkptOp.addR 5 8]).remote ∧
    localMinSequence (readDict (some (toJSON true 0 (reach [CkptOp.addR 5 8])))) =
      localMinSequence (reach [CkptOp.addR 5 8]) :=
  claim_C4 [CkptOp.addR 5 8] true 0 (by decide)

/-- C5: the remote-marker clause of `validateWith` runs only when the local
marker is non-empty and differs from the peer's; both numeric with local
greater rolls back to the peer value and returns false; both numeric with
local smaller-or-equal leaves the marker unchanged and this clause alone
does not flip the result; any non-numeric marker resets the local marker to
empty and returns false. -/
theorem claim_C5 (L P : Checkpoint) :
    (L.remote ≠ RemoteSequence.empty → L.remote ≠ P.remote →
      (((L.remote.isInt && P.remote.isInt) = true →
        (P.remote.intValue < L.remote.intValue →
          (validateWith L P).1.remote = P.remote ∧ (validateWith L P).2 = false) ∧
        (L.remote.intValue ≤ P.remote.intValue →
          (validateWith L P).1.remote = L.remote ∧
          ((validateWith L P).2 = true ↔ L.completed = P.completed))) ∧
      ((L.remote.isInt && P.remote.isInt) = false →
        (validateWith L P).1.remote = RemoteSequence.empty ∧
        (validateWith L P).2 = false))) ∧
    ((L.remote = RemoteSequence.empty ∨ L.remote = P.remote) →
      (validateWith L P).1.remote = L.remote) := by
  have hr := validateWith_remote L P
  have hs := validateWith_snd L P
  constructor
  · intro h1 h2
    rw [if_pos ⟨h1, h2⟩] at hr
    constructor
    · intro hint
      rw [if_pos hint] at hr
      constructor
      · intro hlt
        rw [if_pos hlt] at hr
        refine ⟨hr, ?_⟩
        rw [hs]
        have hok : remoteClauseOk L P = false := by
          cases hok : remoteClauseOk L P
          · rfl
          · exfalso
            rcases remoteClauseOk_iff.mp hok with he | he | ⟨_, _, hle⟩
            · exact h1 he
            · exact h2 he
            · omega
        rw [hok]
        simp
      · intro hle
        rw [if_neg (by omega)] at hr
        refine ⟨hr, ?_⟩
        rw [hs]
        have hok : remoteClauseOk L P = true := by
          rw [remoteClauseOk_iff]
          right; right
          rw [Bool.and_eq_true] at hint
          exact ⟨hint.1, hint.2, hle⟩
        rw [hok]
        simp
    · intro hint
      rw [if_neg (by simp [hint])] at hr
      refine ⟨hr, ?_⟩
      rw [hs]
      have hok : remoteClauseOk L P = false := by
        cases hok : remoteClauseOk L P
        · rfl
        · exfalso
          rcases remoteClauseOk_iff.mp hok with he | he | ⟨hi1, hi2, _⟩
          · exact h1 he
          · exact h2 he
          · rw [hi1, hi2] at hint
            simp at hint
      rw [hok]
      simp
  · intro h
    rw [hr]
    rcases h with h | h
    · rw [if_neg (by simp [h])]
    · rw [if_neg (by simp [h])]

/-- C5 witness: local numeric marker 100 against peer 50 rolls back to 50
and returns false. -/
theorem claim_C5_witness :
    (validateWith ⟨[(0, 1)], 0, RemoteSequence.int 100⟩
        ⟨[(0, 1)], 0, RemoteSequence.int 50⟩).1.remote = RemoteSequence.int 50 ∧
    (validateWith ⟨[(0, 1)], 0, RemoteSequence.int 100⟩
        ⟨[(0, 1)], 0, RemoteSequence.int 50⟩).2 = false := by
  have h := (claim_C5 ⟨[(0, 1)], 0, RemoteSequence.int 100⟩
      ⟨[(0, 1)], 0, RemoteSequence.int 50⟩).1 (by decide) (by decide)
  exact (h.1 (by decide)).1 (by decide)

/-- C6 counterexample: with local completed `{[0,1),[5,10)}` and peer
completed `{[0,1),[3,8)}`, the first call mutates the local state (the
intersection is `{[0,1),[5,8)}`), yet a second call against the same
original peer value still differs from the peer's completed set and returns
false again — the second half of the idempotence claim fails. -/
theorem claim_C6_counterexample :
    (validateWith ⟨[(0, 1), (5, 10)], 0, RemoteSequence.empty⟩
        ⟨[(0, 1), (3, 8)], 0, RemoteSequence.empty⟩).1 ≠
      ⟨[(0, 1), (5, 10)], 0, RemoteSequence.empty⟩ ∧
    (validateWith
        (validateWith ⟨[(0, 1), (5, 10)], 0, RemoteSequence.empty⟩
            ⟨[(0, 1), (3, 8)], 0, RemoteSequence.empty⟩).1
        ⟨[(0, 1), (3, 8)], 0, RemoteSequence.empty⟩).2 = false := by
  decide

/-- C6 amended: after a true (no-op) first call a repeat call returns true;
after any first call the remote clause is stabilized, so the second call
returns true exactly when the first call's resulting completed set equals
the peer's — which can fail after a completed-set merge, since the
intersection need not equal the peer's set. -/
theorem claim_C6 (L P : Checkpoint) :
    ((validateWith L P).2 = true → (validateWith (validateWith L P).1 P).2 = true) ∧
    ((validateWith (validateWith L P).1 P).2 = true ↔
      (validateWith L P).1.completed = P.completed) := by
  have hsnd2 := validateWith_snd (validateWith L P).1 P
  have hok := validateWith_remote_ok L P
  constructor
  · intro h
    have hfix := validateWith_true_fix h
    rw [hsnd2, hok, Bool.and_true, decide_eq_true_eq, hfix]
    rw [validateWith_snd, Bool.and_eq_true, decide_eq_true_eq] at h
    exact h.1
  · rw [hsnd2, hok, Bool.and_true, decide_eq_true_eq]

/-- C6 witness: a no-op first call on equal checkpoints repeats as true. -/
theorem claim_C6_witness :
    (validateWith freshCheckpoint freshCheckpoint).2 = true ∧
    (validateWith (validateWith freshCheckpoint freshCheckpoint).1 freshCheckpoint).2 =
      true :=
  ⟨by decide, (claim_C6 freshCheckpoint freshCheckpoint).1 (by decide)⟩

/-- C7: a present `localCompleted` array is read as successive
`(first, length)` pairs, folding `add(first, first + length)` over the reset
state; an absent array falls back to the scalar `local` field `n` (0 when
absent) and `add(0, n + 1)`. -/
theorem claim_C7 (d : CkptDoc) :
    (∀ arr : List Nat, d.localCompleted = some arr →
      (readDict (some d)).completed =
        (toPairs arr).foldl (fun acc p => SequenceSet.add p.1 (p.1 + p.2) acc) [(0, 1)]) ∧
    (d.localCompleted = none →
      (readDict (some d)).completed =
        SequenceSet.add 0 (d.localSeq.getD 0 + 1) [(0, 1)]) := by
  constructor
  · intro arr hd
    rw [readDict_localCompleted_some _ _ hd, addPairs]
  · intro hd
    rw [readDict_localCompleted_none _ hd]

/-- C7 witness: `{"localCompleted":[0,1,5,3]}` yields `{[0,1),[5,8)}`, and
`{"local":4}` yields `{[0,5)}` with `localMinSequence() = 4`. -/
theorem claim_C7_witness :
    (readDict (some ⟨none, none, some [0, 1, 5, 3], RemoteSequence.empty⟩)).completed =
      [(0, 1), (5, 8)] ∧
    (readDict (some ⟨none, some 4, none, RemoteSequence.empty⟩)).completed = [(0, 5)] ∧
    localMinSequence (readDict (some ⟨none, some 4, none, RemoteSequence.empty⟩)) = 4 := by
  have h1 := (claim_C7 ⟨none, none, some [0, 1, 5, 3], RemoteSequence.empty⟩).1
    [0, 1, 5, 3] rfl
  have h2 := (claim_C7 ⟨none, some 4, none, RemoteSequence.empty⟩).2 rfl
  exact ⟨h1.trans (by decide), h2.trans (by decide), by decide⟩

/-- C8: a parse failure (modelled as a null root document) is non-fatal:
`readJSON` yields exactly a brand-new checkpoint — completed `{[0,1)}`,
`lastChecked` 0, empty remote. -/
theorem claim_C8 :
    readJSON none = freshCheckpoint ∧
    freshCheckpoint.completed = [(0, 1)] ∧ freshCheckpoint.lastChecked = 0 ∧
    freshCheckpoint.remote = RemoteSequence.empty :=
  ⟨rfl, by decide, rfl, rfl⟩

/-- C9 counterexample: the checkpoint with completed `{[5,8)}` (canonical and
non-empty) and `lastChecked = 0` has `pendingSequenceCount() = 5` — the code
also counts the gap below the first range — while the claimed formula "gaps
between consecutive ranges plus tail" gives 0. -/
theorem claim_C9_counterexample :
    SequenceSet.canonB (⟨[(5, 8)], 0, RemoteSequence.empty⟩ : Checkpoint).completed = true ∧
    (⟨[(5, 8)], 0, RemoteSequence.empty⟩ : Checkpoint).completed ≠ [] ∧
    pendingSequenceCount ⟨[(5, 8)], 0, RemoteSequence.empty⟩ = 5 ∧
    gapsBetween [(5, 8)] + tailCount [(5, 8)] 0 = 0 := by
  decide

/-- C9 amended: for every checkpoint whose canonical completed set is
non-empty and whose first range starts at the sentinel 0 (the invariant all
properly maintained checkpoints satisfy), `pendingSequenceCount()` equals
the sum of the gaps between consecutive ranges plus the tail from the end of
the last range up to `lastChecked`. -/
theorem claim_C9 (c : Checkpoint) (l : Nat) (t : List (Nat × Nat))
    (hc : SequenceSet.canonB c.completed = true) (hcc : c.completed = (0, l) :: t) :
    pendingSequenceCount c =
      gapsBetween c.completed + tailCount c.completed c.lastChecked := by
  have h := pendingSequenceCount_spec c.lastChecked c.remote l t (by rw [← hcc]; exact hc)
  have hceq : c = ⟨(0, l) :: t, c.lastChecked, c.remote⟩ := by
    ext
    · rw [hcc]
    · rfl
    · rfl
  rw [hcc, hceq]
  exact h

/-- C9 witness: the spec's concrete instance — completed `{[0,1),[5,8)}`
with `lastChecked = 10` gives (5−1) + (10−7) = 7. -/
theorem claim_C9_witness :
    pendingSequenceCount ⟨[(0, 1), (5, 8)], 10, RemoteSequence.empty⟩ = 7 ∧
    gapsBetween [(0, 1), (5, 8)] + tailCount [(0, 1), (5, 8)] 10 = 7 := by
  have h := claim_C9 ⟨[(0, 1), (5, 8)], 10, RemoteSequence.empty⟩ 1 [(5, 8)]
    (by decide) rfl
  exact ⟨h.trans (by decide), by decide⟩

/-- C10: `validateWith` never touches `lastChecked`, in every branch —
reconciliation mutates only the completed set and the remote marker. -/
theorem claim_C10 (L P : Checkpoint) :
    (validateWith L P).1.lastChecked = L.lastChecked :=
  validateWith_lastChecked L P

end LiteCore
